import Mathlib

/-!
Verification of the Run-Aggregator utility of the CART-ABM analysis scripts.

The model below is a shallow embedding of the time-series alignment and
aggregation logic of `latest_complete_analysis.py` (and its duplicates in
`plot_num_cells.py`, `plot_cells_of_each_type.py`), of the per-file statistics
of `process_csv_files.py`, and of the time-string parser of
`plot_execution_times.py`.

Numeric samples are modelled as exact rationals; `np.interp` is modelled by
`interp1`, which mirrors numpy's compiled interpolation routine: flat
extrapolation outside the sampled range, exact return of the stored value when
the query time hits a sample time, and linear interpolation strictly inside an
interval.  `np.std` computes the square root of the population variance; the
aggregation functions below return the population variance (`varP`), and
`stdSeq` applies the square root.
-/

/-- One (time, value) sample of a run, as read from one CSV row. -/
abbrev Sample := ℚ × ℚ

/-- One simulation replicate: the ordered list of its (time, value) samples
for one tracked field. -/
abbrev Run := List Sample

/-- Linear interpolation of the samples `p :: rest` at query time `x`,
mirroring `np.interp`: before the first sample time the first value is
returned, after the last the last value, a query equal to a sample time
returns that sample's value, and strictly inside an interval the value is
linearly interpolated. -/
def interp1 (p : Sample) : List Sample → ℚ → ℚ
  | [], _ => p.2
  | q :: rest, x =>
    if x < q.1 then
      (if x ≤ p.1 then p.2
       else p.2 + (q.2 - p.2) * (x - p.1) / (q.1 - p.1))
    else interp1 q rest x

/-- `np.interp(axis, run.times, run.values)`: interpolate one run onto the
reference axis.  `np.interp` raises on an empty sample array, modelled as
`none`. -/
def resample (run : Run) (axis : List ℚ) : Option (List ℚ) :=
  match run with
  | [] => none
  | p :: rest => some (axis.map (interp1 p rest))

/-- Total variant of `resample` used to state characterization lemmas. -/
def resampleD (run : Run) (axis : List ℚ) : List ℚ :=
  match run with
  | [] => []
  | p :: rest => axis.map (interp1 p rest)

/-- `df[df['total_days'] <= days]`: keep the samples with time at most
`maxTime`, in order. -/
def truncate (run : Run) (maxTime : ℚ) : Run :=
  run.filter (fun s => s.1 ≤ maxTime)

/-- `filtered_csv_dfs[0]['total_days'].values`: the time column of the first
run of the (already truncated) run set. -/
def buildReferenceAxis (runSet : List Run) : List ℚ :=
  (runSet.headD []).map Prod.fst

/-- `np.mean` of a vector. -/
def mean (xs : List ℚ) : ℚ := xs.sum / xs.length

/-- Population variance (`np.std` squared): mean of the squared deviations,
divided by the length `N`, not `N - 1`. -/
def varP (xs : List ℚ) : ℚ := ((xs.map (fun x => (x - mean xs) ^ 2)).sum) / xs.length

/-- The resampling loop: each run of the run set is interpolated onto the
axis and the rows are stacked into a matrix; a run with no samples makes
`np.interp` raise, modelled as `none`. -/
def resampleAll : List Run → List ℚ → Option (List (List ℚ))
  | [], _ => some []
  | run :: rest, axis =>
    match resample run axis, resampleAll rest axis with
    | some ys, some rows => some (ys :: rows)
    | _, _ => none

/-- Column `j` of the stacked per-run matrix: one value per run. -/
def column (rows : List (List ℚ)) (j : ℕ) : List ℚ :=
  rows.map (fun r => r.getD j 0)

/-- The aggregation block guarded by `if csv_dataframes:`: resample every run
of a non-empty run set onto the axis and reduce each column of the stacked
matrix with `np.mean` / `np.std` (the second component is the population
variance, whose square root is the standard deviation). -/
def aggregate (runSet : List Run) (axis : List ℚ) : Option (List ℚ × List ℚ) :=
  if runSet.isEmpty then none
  else
    (resampleAll runSet axis).map (fun rows =>
      ((List.range axis.length).map (fun j => mean (column rows j)),
       (List.range axis.length).map (fun j => varP (column rows j))))

/-- The standard-deviation band drawn by the scripts: the square root of each
population variance. -/
noncomputable def stdSeq (vars : List ℚ) : List ℝ :=
  vars.map (fun v => Real.sqrt (Rat.cast v))

/-- The CSV loading loop: each named source either exists (`some run`) or
does not (`none`, the `os.path.exists` check failing).  A missing source is
skipped and one warning is printed; the loop returns the loaded run set and
the number of warnings. -/
def loadDriver : List (Option Run) → List Run × ℕ
  | [] => ([], 0)
  | some run :: rest => ((run :: (loadDriver rest).1), (loadDriver rest).2)
  | none :: rest => ((loadDriver rest).1, (loadDriver rest).2 + 1)

/-- One row of a raw per-cell simulation CSV, as named by `pd.read_csv` in
`process_csv_files.py`. -/
structure RawRow where
  oxygen_level : ℚ
  oncoproteine_level : ℚ
  base_transition_rate : ℚ
  final_rate_transition : ℚ
  probability_necrosis : ℚ
deriving DecidableEq

/-- `df.min()` of one column (the input file is assumed non-empty, as in the
script). -/
def listMin : List ℚ → ℚ
  | [] => 0
  | x :: xs => xs.foldl min x

/-- `df.max()` of one column. -/
def listMax : List ℚ → ℚ
  | [] => 0
  | x :: xs => xs.foldl max x

/-- The single processed row written by `process_csv_file`: min, avg, max for
each of the five metrics. -/
structure ProcessedRow where
  min_oxygen_level : ℚ
  avg_oxygen_level : ℚ
  max_oxygen_level : ℚ
  min_oncoproteine_level : ℚ
  avg_oncoproteine_level : ℚ
  max_oncoproteine_level : ℚ
  min_base_transition_rate : ℚ
  avg_base_transition_rate : ℚ
  max_base_transition_rate : ℚ
  min_final_rate_transition : ℚ
  avg_final_rate_transition : ℚ
  max_final_rate_transition : ℚ
  min_probability_necrosis : ℚ
  avg_probability_necrosis : ℚ
  max_probability_necrosis : ℚ
deriving DecidableEq

/-- `process_csv_file`: read the five-column table and emit the single row of
column-wise minima, arithmetic means and maxima. -/
def process_csv_file (rows : List RawRow) : ProcessedRow where
  min_oxygen_level := listMin (rows.map RawRow.oxygen_level)
  avg_oxygen_level := mean (rows.map RawRow.oxygen_level)
  max_oxygen_level := listMax (rows.map RawRow.oxygen_level)
  min_oncoproteine_level := listMin (rows.map RawRow.oncoproteine_level)
  avg_oncoproteine_level := mean (rows.map RawRow.oncoproteine_level)
  max_oncoproteine_level := listMax (rows.map RawRow.oncoproteine_level)
  min_base_transition_rate := listMin (rows.map RawRow.base_transition_rate)
  avg_base_transition_rate := mean (rows.map RawRow.base_transition_rate)
  max_base_transition_rate := listMax (rows.map RawRow.base_transition_rate)
  min_final_rate_transition := listMin (rows.map RawRow.final_rate_transition)
  avg_final_rate_transition := mean (rows.map RawRow.final_rate_transition)
  max_final_rate_transition := listMax (rows.map RawRow.final_rate_transition)
  min_probability_necrosis := listMin (rows.map RawRow.probability_necrosis)
  avg_probability_necrosis := mean (rows.map RawRow.probability_necrosis)
  max_probability_necrosis := listMax (rows.map RawRow.probability_necrosis)

/-- The contract of one min/avg/max triple of the processed row against its
input column. -/
def tripleOk (mn av mx : ℚ) (col : List ℚ) : Prop :=
  mn ≤ av ∧ av ≤ mx ∧ mn = listMin col ∧ av = mean col ∧ mx = listMax col

/-- Python's `str.split(sep)` for a one-character separator, on the list of
characters of the string. -/
def splitOnChar (c : Char) : List Char → List (List Char)
  | [] => [[]]
  | x :: xs =>
    if x = c then [] :: splitOnChar c xs
    else
      match splitOnChar c xs with
      | [] => [[x]]
      | h :: t => (x :: h) :: t

/-- Python's `str.replace(a, b)` for one-character `a` and `b`. -/
def replaceChar (a b : Char) (s : List Char) : List Char :=
  s.map (fun x => if x = a then b else x)

/-- Python's `str.replace(c, '')`: drop every occurrence of `c`. -/
def removeChar (c : Char) (s : List Char) : List Char :=
  s.filter (fun x => x ≠ c)

/-- The natural number denoted by a list of decimal digits. -/
def digitsToNat (s : List Char) : ℕ :=
  s.foldl (fun n c => 10 * n + (c.toNat - 48)) 0

/-- Python's `float(s)` restricted to the unsigned decimal literals the
script feeds it: digit characters with at most one decimal point. -/
def parseDec (s : List Char) : Option ℚ :=
  match splitOnChar '.' s with
  | [i] =>
      if i ≠ [] ∧ i.all Char.isDigit then some ((digitsToNat i : ℚ)) else none
  | [i, f] =>
      if (i ≠ [] ∨ f ≠ []) ∧ i.all Char.isDigit ∧ f.all Char.isDigit then
        some ((digitsToNat i : ℚ) + (digitsToNat f : ℚ) / 10 ^ f.length)
      else none
  | _ => none

/-- `parse_time` of `plot_execution_times.py`: replace ',' by '.', split on
'm', parse the minutes part and (after dropping the trailing 's') the seconds
part, and return minutes times 60 plus seconds.  A string without an 'm'
separator has no `parts[1]` and fails (modelled as `none`). -/
def parse_time (s : List Char) : Option ℚ :=
  match splitOnChar 'm' (replaceChar ',' '.' s) with
  | p0 :: p1 :: _ =>
      match parseDec p0, parseDec (removeChar 's' p1) with
      | some m, some sec => some (m * 60 + sec)
      | _, _ => none
  | _ => none

/-- A value of the percentage pipeline as held in a numpy float64: a finite
value (modelled exactly as a rational), +infinity, -infinity, or NaN.  The
raw CSV columns are finite; division by a zero denominator produces the
nonfinite values. -/
inductive FV : Type where
  | fin : ℚ → FV
  | pinf : FV
  | ninf : FV
  | nan : FV
deriving DecidableEq

/-- IEEE-754 addition on `FV`. -/
def fvAdd : FV → FV → FV
  | FV.nan, _ => FV.nan
  | _, FV.nan => FV.nan
  | FV.fin a, FV.fin b => FV.fin (a + b)
  | FV.fin _, FV.pinf => FV.pinf
  | FV.fin _, FV.ninf => FV.ninf
  | FV.pinf, FV.fin _ => FV.pinf
  | FV.pinf, FV.pinf => FV.pinf
  | FV.pinf, FV.ninf => FV.nan
  | FV.ninf, FV.fin _ => FV.ninf
  | FV.ninf, FV.pinf => FV.nan
  | FV.ninf, FV.ninf => FV.ninf

/-- IEEE-754 negation on `FV`. -/
def fvNeg : FV → FV
  | FV.fin a => FV.fin (-a)
  | FV.pinf => FV.ninf
  | FV.ninf => FV.pinf
  | FV.nan => FV.nan

/-- IEEE-754 subtraction on `FV`. -/
def fvSub (x y : FV) : FV := fvAdd x (fvNeg y)

/-- IEEE-754 multiplication on `FV` (infinity times zero is NaN). -/
def fvMul : FV → FV → FV
  | FV.nan, _ => FV.nan
  | _, FV.nan => FV.nan
  | FV.fin a, FV.fin b => FV.fin (a * b)
  | FV.fin a, FV.pinf =>
      if 0 < a then FV.pinf else if a < 0 then FV.ninf else FV.nan
  | FV.fin a, FV.ninf =>
      if 0 < a then FV.ninf else if a < 0 then FV.pinf else FV.nan
  | FV.pinf, FV.fin b =>
      if 0 < b then FV.pinf else if b < 0 then FV.ninf else FV.nan
  | FV.ninf, FV.fin b =>
      if 0 < b then FV.ninf else if b < 0 then FV.pinf else FV.nan
  | FV.pinf, FV.pinf => FV.pinf
  | FV.pinf, FV.ninf => FV.ninf
  | FV.ninf, FV.pinf => FV.ninf
  | FV.ninf, FV.ninf => FV.pinf

/-- IEEE-754 division on `FV` (with numpy semantics for a zero denominator:
0/0 is NaN, x/0 is signed infinity; ℚ has no signed zero, so a zero
denominator counts as +0). -/
def fvDiv : FV → FV → FV
  | FV.nan, _ => FV.nan
  | _, FV.nan => FV.nan
  | FV.fin a, FV.fin b =>
      if b = 0 then (if a = 0 then FV.nan else if 0 < a then FV.pinf else FV.ninf)
      else FV.fin (a / b)
  | FV.fin _, FV.pinf => FV.fin 0
  | FV.fin _, FV.ninf => FV.fin 0
  | FV.pinf, FV.fin b => if 0 ≤ b then FV.pinf else FV.ninf
  | FV.ninf, FV.fin b => if 0 ≤ b then FV.ninf else FV.pinf
  | FV.pinf, FV.pinf => FV.nan
  | FV.pinf, FV.ninf => FV.nan
  | FV.ninf, FV.pinf => FV.nan
  | FV.ninf, FV.ninf => FV.nan

/-- IEEE-754 equality comparison on `FV` (NaN compares unequal to
everything, including itself). -/
def fvBeq : FV → FV → Bool
  | FV.nan, _ => false
  | _, FV.nan => false
  | FV.fin a, FV.fin b => a == b
  | FV.pinf, FV.pinf => true
  | FV.ninf, FV.ninf => true
  | _, _ => false

/-- One interior interpolation step of numpy's compiled `np.interp` for
`x1 < x < x2`: compute `slope*(x - x1) + y1`; on NaN retry from the right
endpoint, and if still NaN return `y1` when `y1 == y2`. -/
def fvInterpSeg (x1 x2 : ℚ) (y1 y2 : FV) (x : ℚ) : FV :=
  let slope := fvDiv (fvSub y2 y1) (FV.fin (x2 - x1))
  let r1 := fvAdd (fvMul slope (FV.fin (x - x1))) y1
  if r1 = FV.nan then
    (let r2 := fvAdd (fvMul slope (FV.fin (x - x2))) y2
     if r2 = FV.nan then (if fvBeq y1 y2 then y1 else FV.nan) else r2)
  else r1

/-- `np.interp` on a series whose values may be nonfinite: flat extrapolation
outside the range, the stored value at an exact sample time, and
`fvInterpSeg` strictly inside an interval. -/
def fvInterp1 (p : ℚ × FV) : List (ℚ × FV) → ℚ → FV
  | [], _ => p.2
  | q :: rest, x =>
    if x < q.1 then
      (if x ≤ p.1 then p.2 else fvInterpSeg p.1 q.1 p.2 q.2 x)
    else fvInterp1 q rest x

/-- One (time, numerator, denominator) sample of a run, e.g.
(total_days, tumor_cells_type1, num_tumor_cells). -/
abbrev RatioSample := ℚ × ℚ × ℚ

/-- A run carrying the numerator and denominator fields of the percentage
computation. -/
abbrev RatioRun := List RatioSample

/-- The per-run pointwise computation `100 * df[col] / df['num_tumor_cells']`
performed on the run's own time grid before resampling. -/
def ratioSeries (run : RatioRun) : List (ℚ × FV) :=
  run.map (fun s => (s.1, fvDiv (FV.fin (100 * s.2.1)) (FV.fin s.2.2)))

/-- `np.interp` of one ratio series onto the reference axis (`none` for a run
with no samples, where `np.interp` raises). -/
def fvResample (run : List (ℚ × FV)) (axis : List ℚ) : Option (List FV) :=
  match run with
  | [] => none
  | p :: rest => some (axis.map (fvInterp1 p rest))

/-- Total variant of `fvResample` used in characterization lemmas. -/
def fvResampleD (run : List (ℚ × FV)) (axis : List ℚ) : List FV :=
  match run with
  | [] => []
  | p :: rest => axis.map (fvInterp1 p rest)

/-- The resampling loop of the percentage block. -/
def fvResampleAll : List (List (ℚ × FV)) → List ℚ → Option (List (List FV))
  | [], _ => some []
  | run :: rest, axis =>
    match fvResample run axis, fvResampleAll rest axis with
    | some ys, some rows => some (ys :: rows)
    | _, _ => none

/-- `np.sum` with IEEE special values. -/
def fvSum (l : List FV) : FV := l.foldl fvAdd (FV.fin 0)

/-- `np.mean` with IEEE special values. -/
def fvMean (l : List FV) : FV := fvDiv (fvSum l) (FV.fin (l.length : ℚ))

/-- Population variance (the square of `np.std`) with IEEE special values;
its square root — the drawn standard deviation — is finite/NaN exactly when
it is. -/
def fvVarP (l : List FV) : FV :=
  fvMean (l.map (fun x => fvMul (fvSub x (fvMean l)) (fvSub x (fvMean l))))

/-- Column `j` of the stacked percentage matrix. -/
def fvColumn (rows : List (List FV)) (j : ℕ) : List FV :=
  rows.map (fun r => r.getD j FV.nan)

/-- The `all_type_percent` aggregation block: per run, divide the numerator
column by the denominator column (times 100) on the run's own grid, resample
onto the axis, stack, and reduce columns with `np.mean` / `np.std` (second
component: population variance). -/
def aggregate_ratio (runSet : List RatioRun) (axis : List ℚ) : Option (List FV × List FV) :=
  if runSet.isEmpty then none
  else
    (fvResampleAll (runSet.map ratioSeries) axis).map (fun rows =>
      ((List.range axis.length).map (fun j => fvMean (fvColumn rows j)),
       (List.range axis.length).map (fun j => fvVarP (fvColumn rows j))))

/-- Finiteness test on `FV`. -/
def fvIsFin : FV → Bool
  | FV.fin _ => true
  | _ => false

theorem resampleAll_of_all_ne_nil (runSet : List Run) (axis : List ℚ)
    (h : ∀ run ∈ runSet, run ≠ []) :
    resampleAll runSet axis = some (runSet.map (fun run => resampleD run axis)) := by
  induction runSet with
  | nil => rfl
  | cons r rs ih =>
      obtain ⟨p, rest, rfl⟩ :=
        List.exists_cons_of_ne_nil (h r (List.mem_cons_self r rs))
      rw [resampleAll, ih (fun run hm => h run (List.mem_cons_of_mem _ hm))]
      rfl

theorem resampleAll_of_mem_nil (runSet : List Run) (axis : List ℚ)
    (h : [] ∈ runSet) : resampleAll runSet axis = none := by
  induction runSet with
  | nil => cases h
  | cons r rs ih =>
      rcases List.mem_cons.mp h with hr | hr
      · rw [resampleAll, ← hr]
        cases resampleAll rs axis <;> rfl
      · rw [resampleAll, ih hr]
        cases resample r axis <;> rfl

theorem mean_perm (xs ys : List ℚ) (h : xs.Perm ys) : mean xs = mean ys := by
  rw [mean, mean, h.sum_eq, h.length_eq]

theorem varP_perm (xs ys : List ℚ) (h : xs.Perm ys) : varP xs = varP ys := by
  rw [varP, varP, mean_perm xs ys h, (h.map (fun x => (x - mean ys) ^ 2)).sum_eq, h.length_eq]

theorem sqrt_ratCast_hundred : Real.sqrt ((100 : ℚ) : ℝ) = 10 := by
  rw [show ((100 : ℚ) : ℝ) = (10 : ℝ) ^ 2 by norm_num]
  rw [Real.sqrt_sq (by norm_num)]

theorem sqrt_ratCast_225 : Real.sqrt ((225 : ℚ) : ℝ) = 15 := by
  rw [show ((225 : ℚ) : ℝ) = (15 : ℝ) ^ 2 by norm_num]
  rw [Real.sqrt_sq (by norm_num)]

theorem times_head_le_getLastD (p : Sample) (rest : List Sample)
    (hsorted : List.Chain' (· ≤ ·) ((p :: rest).map Prod.fst)) :
    p.1 ≤ (rest.getLastD p).1 := by
  induction rest generalizing p with
  | nil => simp
  | cons q rs ih =>
      rw [List.map_cons, List.map_cons, List.chain'_cons] at hsorted
      have h2 : q.1 ≤ (rs.getLastD q).1 := by
        apply ih
        rw [List.map_cons]
        exact hsorted.2
      simp only [List.getLastD_cons]
      exact le_trans hsorted.1 h2

theorem interp1_before_first (p : Sample) (rest : List Sample)
    (hsorted : List.Chain' (· ≤ ·) ((p :: rest).map Prod.fst))
    (t : ℚ) (ht : t < p.1) : interp1 p rest t = p.2 := by
  cases rest with
  | nil => rfl
  | cons q rs =>
      rw [List.map_cons, List.map_cons, List.chain'_cons] at hsorted
      have h1 : t < q.1 := lt_of_lt_of_le ht hsorted.1
      simp only [interp1]
      rw [if_pos h1, if_pos (le_of_lt ht)]

theorem interp1_after_last (p : Sample) (rest : List Sample)
    (hsorted : List.Chain' (· ≤ ·) ((p :: rest).map Prod.fst))
    (t : ℚ) (ht : (rest.getLastD p).1 < t) :
    interp1 p rest t = (rest.getLastD p).2 := by
  induction rest generalizing p with
  | nil => rfl
  | cons q rs ih =>
      rw [List.map_cons, List.map_cons, List.chain'_cons] at hsorted
      have hchain : List.Chain' (· ≤ ·) ((q :: rs).map Prod.fst) := by
        rw [List.map_cons]; exact hsorted.2
      rw [List.getLastD_cons] at ht ⊢
      have hq : ¬ t < q.1 :=
        not_lt.mpr (le_of_lt (lt_of_le_of_lt (times_head_le_getLastD q rs hchain) ht))
      simp only [interp1]
      rw [if_neg hq]
      exact ih q hchain ht

/-- C3: for a run with non-decreasing times, `resample` never fails, and at
every reference-axis query time lying strictly before the run's first sample
time (resp. strictly after its last) it returns the first (resp. last)
observed value: flat extrapolation, no extrapolation beyond the boundary
sample. -/
theorem c3_flat_extrapolation (p : Sample) (rest : List Sample)
    (hsorted : List.Chain' (· ≤ ·) ((p :: rest).map Prod.fst)) (axis : List ℚ) :
    ∃ ys, resample (p :: rest) axis = some ys ∧
      ∀ i t, axis.get? i = some t →
        (t < p.1 → ys.get? i = some p.2) ∧
        ((rest.getLastD p).1 < t → ys.get? i = some (rest.getLastD p).2) := by
  refine ⟨axis.map (interp1 p rest), rfl, ?_⟩
  intro i t hit
  have hys : (axis.map (interp1 p rest)).get? i = some (interp1 p rest t) := by
    rw [List.get?_map, hit]; rfl
  constructor
  · intro h
    rw [hys, interp1_before_first p rest hsorted t h]
  · intro h
    rw [hys, interp1_after_last p rest hsorted t h]

/-- Witness for C3, at the run {(0,1),(10,2)} and the axis [-5,20] extending
outside the run's range on both sides. -/
theorem c3_witness :
    ∃ ys, resample [((0 : ℚ), (1 : ℚ)), ((10 : ℚ), (2 : ℚ))] [-5, 20] = some ys ∧
      ∀ i t, ([(-5 : ℚ), (20 : ℚ)].get? i) = some t →
        (t < ((0 : ℚ), (1 : ℚ)).1 → ys.get? i = some ((0 : ℚ), (1 : ℚ)).2) ∧
        (([((10 : ℚ), (2 : ℚ))].getLastD ((0 : ℚ), (1 : ℚ))).1 < t →
          ys.get? i = some ([((10 : ℚ), (2 : ℚ))].getLastD ((0 : ℚ), (1 : ℚ))).2) :=
  c3_flat_extrapolation ((0 : ℚ), (1 : ℚ)) [((10 : ℚ), (2 : ℚ))]
    (by norm_num [List.chain'_cons]) [-5, 20]

theorem range_map_getD (ys : List ℚ) (d : ℚ) :
    (List.range ys.length).map (fun j => ys.getD j d) = ys := by
  induction ys with
  | nil => rfl
  | cons y ys ih =>
      rw [List.length_cons, List.range_succ_eq_map, List.map_cons, List.map_map]
      simp only [List.getD_cons_zero, Function.comp_def, List.getD_cons_succ]
      rw [ih]

theorem mean_singleton (x : ℚ) : mean [x] = x := by
  simp [mean]

theorem varP_singleton (x : ℚ) : varP [x] = 0 := by
  simp [varP, mean]

/-- C4: aggregating a run set with a single run gives the run's resampled
series as the mean and a population variance of exactly 0 at every time point
(hence a standard deviation of exactly 0 at every time point). -/
theorem c4_singleton_run_set (run : Run) (hne : run ≠ []) (axis : List ℚ) :
    ∃ ys, resample run axis = some ys ∧
      aggregate [run] axis = some (ys, List.replicate axis.length 0) ∧
      stdSeq (List.replicate axis.length 0) = List.replicate axis.length 0 := by
  obtain ⟨p, rest, rfl⟩ := List.exists_cons_of_ne_nil hne
  refine ⟨axis.map (interp1 p rest), rfl, ?_, ?_⟩
  · simp only [aggregate, resampleAll, resample, column, List.isEmpty_cons, Bool.false_eq_true,
      if_false, Option.map_some', List.map_cons, List.map_nil, mean_singleton, varP_singleton]
    rw [show axis.length = (axis.map (interp1 p rest)).length from (List.length_map _ _).symm]
    rw [range_map_getD]
    simp [List.length_map]
  · show (List.replicate axis.length (0 : ℚ)).map (fun v => Real.sqrt (Rat.cast v)) =
      List.replicate axis.length 0
    rw [List.map_replicate]
    norm_num

/-- Witness for C4, at the run {(0,5)} and the axis [0,3]. -/
theorem c4_witness :
    ∃ ys, resample [((0 : ℚ), (5 : ℚ))] [0, 3] = some ys ∧
      aggregate [[((0 : ℚ), (5 : ℚ))]] [0, 3] =
        some (ys, List.replicate ([(0 : ℚ), (3 : ℚ)].length) 0) ∧
      stdSeq (List.replicate ([(0 : ℚ), (3 : ℚ)].length) 0) =
        List.replicate ([(0 : ℚ), (3 : ℚ)].length) 0 :=
  c4_singleton_run_set [((0 : ℚ), (5 : ℚ))] (by decide) [0, 3]

/-- C1: for the run set of Run A = {(0,10),(10,20)} and Run B =
{(0,30),(10,50)}, truncated at max_time = 10, with the reference axis taken
from Run A (the first run), `aggregate` returns mean [20, 35] and population
variance [100, 225], whose square roots give the population standard
deviation [10, 15] (division by N = 2, not N - 1). -/
theorem c1_two_run_scenario :
    ∃ ms vs,
      aggregate
        [truncate [((0 : ℚ), (10 : ℚ)), (10, 20)] 10,
         truncate [((0 : ℚ), (30 : ℚ)), (10, 50)] 10]
        (buildReferenceAxis
          [truncate [((0 : ℚ), (10 : ℚ)), (10, 20)] 10,
           truncate [((0 : ℚ), (30 : ℚ)), (10, 50)] 10]) = some (ms, vs) ∧
      ms = [20, 35] ∧ vs = [100, 225] ∧ stdSeq vs = [10, 15] := by
  refine ⟨[20, 35], [100, 225], ?_, rfl, rfl, ?_⟩
  · norm_num [aggregate, truncate, buildReferenceAxis, resampleAll, resample, interp1, column,
      mean, varP, List.filter, List.range_succ]
  · show [Real.sqrt ((100 : ℚ) : ℝ), Real.sqrt ((225 : ℚ) : ℝ)] = [10, 15]
    rw [sqrt_ratCast_hundred, sqrt_ratCast_225]

/-- C5: `aggregate` is invariant under reordering of the runs within a run
set: for any permutation of the run set, the mean sequence and the
(population-variance, hence standard-deviation) sequence are unchanged. -/
theorem c5_perm_invariant (runSet runSet' : List Run) (hperm : runSet.Perm runSet')
    (axis : List ℚ) : aggregate runSet' axis = aggregate runSet axis := by
  rcases runSet with _ | ⟨r, rs⟩
  · have h' : runSet' = [] := hperm.symm.eq_nil
    rw [h']
  · have hemp' : runSet'.isEmpty = false := by
      cases hx : runSet' with
      | nil => exact absurd (hx ▸ hperm).eq_nil (List.cons_ne_nil r rs)
      | cons a l => rfl
    by_cases hall : ∀ run ∈ r :: rs, run ≠ []
    · have hall' : ∀ run ∈ runSet', run ≠ [] := fun run hm =>
        hall run (hperm.mem_iff.mpr hm)
      rw [aggregate, aggregate, hemp',
        resampleAll_of_all_ne_nil _ _ hall, resampleAll_of_all_ne_nil _ _ hall']
      simp only [List.isEmpty_cons, Option.map_some']
      have hcol : ∀ j, (column (runSet'.map (fun run => resampleD run axis)) j).Perm
          (column ((r :: rs).map (fun run => resampleD run axis)) j) := by
        intro j
        rw [column, column, List.map_map, List.map_map]
        exact ((hperm.map ((fun rw => rw.getD j 0) ∘ fun run => resampleD run axis))).symm
      refine congrArg some (Prod.ext ?_ ?_) <;>
        exact List.map_congr_left (fun j _ => by
          first
            | exact mean_perm _ _ (hcol j)
            | exact varP_perm _ _ (hcol j))
    · have hmem : [] ∈ r :: rs := by
        push_neg at hall
        obtain ⟨run, hm, hrun⟩ := hall
        exact hrun ▸ hm
      have hmem' : [] ∈ runSet' := hperm.mem_iff.mp hmem
      rw [aggregate, aggregate, hemp', resampleAll_of_mem_nil _ _ hmem,
        resampleAll_of_mem_nil _ _ hmem']
      rfl

/-- Witness for C5: swapping the two runs of a two-run set leaves the
aggregate unchanged. -/
theorem c5_witness :
    aggregate [[((0 : ℚ), (3 : ℚ))], [((0 : ℚ), (7 : ℚ))]] [0] =
      aggregate [[((0 : ℚ), (7 : ℚ))], [((0 : ℚ), (3 : ℚ))]] [0] :=
  c5_perm_invariant [[((0 : ℚ), (7 : ℚ))], [((0 : ℚ), (3 : ℚ))]]
    [[((0 : ℚ), (3 : ℚ))], [((0 : ℚ), (7 : ℚ))]]
    (List.Perm.swap [((0 : ℚ), (3 : ℚ))] [((0 : ℚ), (7 : ℚ))] []) [0]

/-- C6: `truncate` keeps exactly the samples with time at most `max_time`
(inclusive), in their original order (sublist, membership both ways, and
multiplicity preserved for kept samples); and the reference axis built from
any truncated run set never contains a time exceeding `max_time`. -/
theorem c6_truncate_bound (run : Run) (m : ℚ) (runSet : List Run) :
    (truncate run m).Sublist run ∧
    (∀ s ∈ truncate run m, s.1 ≤ m) ∧
    (∀ s ∈ run, s.1 ≤ m → s ∈ truncate run m) ∧
    (∀ s : Sample, s.1 ≤ m → (truncate run m).count s = run.count s) ∧
    (∀ t ∈ buildReferenceAxis (runSet.map (fun r => truncate r m)), t ≤ m) := by
  refine ⟨List.filter_sublist run, ?_, ?_, ?_, ?_⟩
  · intro s hs
    exact of_decide_eq_true (List.mem_filter.mp hs).2
  · intro s hs hle
    exact List.mem_filter.mpr ⟨hs, decide_eq_true hle⟩
  · intro s hle
    exact List.count_filter (decide_eq_true hle)
  · intro t ht
    cases runSet with
    | nil => cases ht
    | cons r rs =>
        simp only [List.map_cons, buildReferenceAxis, List.headD_cons, List.mem_map] at ht
        obtain ⟨s, hs, rfl⟩ := ht
        exact of_decide_eq_true (List.mem_filter.mp hs).2

/-- Witness for C6, at the run {(0,1),(5,2),(20,3)}, bound 10, and a run set
containing that run. -/
theorem c6_witness :
    (truncate [((0 : ℚ), (1 : ℚ)), (5, 2), (20, 3)] 10).Sublist
      [((0 : ℚ), (1 : ℚ)), (5, 2), (20, 3)] ∧
    (∀ s ∈ truncate [((0 : ℚ), (1 : ℚ)), (5, 2), (20, 3)] 10, s.1 ≤ 10) ∧
    (∀ s ∈ [((0 : ℚ), (1 : ℚ)), (5, 2), (20, 3)], s.1 ≤ 10 →
      s ∈ truncate [((0 : ℚ), (1 : ℚ)), (5, 2), (20, 3)] 10) ∧
    (∀ s : Sample, s.1 ≤ 10 →
      (truncate [((0 : ℚ), (1 : ℚ)), (5, 2), (20, 3)] 10).count s =
        [((0 : ℚ), (1 : ℚ)), (5, 2), (20, 3)].count s) ∧
    (∀ t ∈ buildReferenceAxis
        ([[((0 : ℚ), (1 : ℚ)), (5, 2), (20, 3)]].map (fun r => truncate r 10)), t ≤ 10) :=
  c6_truncate_bound [((0 : ℚ), (1 : ℚ)), (5, 2), (20, 3)] 10
    [[((0 : ℚ), (1 : ℚ)), (5, 2), (20, 3)]]

/-- C8 counterexample: the claim promises mean/std sequences of the axis
length regardless of how many samples each run contains, but a run set whose
run has zero samples yields no aggregate at all (`np.interp` raises on an
empty sample array). -/
theorem c8_counterexample : aggregate [([] : Run)] [(0 : ℚ)] = none := rfl

/-- C8 (amended): for every non-empty run set whose runs each have at least
one sample, `aggregate` returns mean and variance (hence standard-deviation)
sequences of exactly the reference-axis length, and aggregation over an empty
run set yields no aggregate rather than a crash. -/
theorem c8_lengths (runSet : List Run) (axis : List ℚ) (hne : runSet ≠ [])
    (hruns : ∀ run ∈ runSet, run ≠ []) :
    (∃ ms vs, aggregate runSet axis = some (ms, vs) ∧
      ms.length = axis.length ∧ vs.length = axis.length) ∧
    aggregate [] axis = none := by
  constructor
  · have hemp : runSet.isEmpty = false := by
      cases runSet with
      | nil => exact absurd rfl hne
      | cons a l => rfl
    rw [aggregate, hemp, resampleAll_of_all_ne_nil _ _ hruns]
    simp only [Bool.false_eq_true, if_false, Option.map_some']
    exact ⟨_, _, rfl, by simp, by simp⟩
  · rfl

/-- Witness for C8, at a two-run set and a three-point axis. -/
theorem c8_witness :
    (∃ ms vs,
      aggregate [[((0 : ℚ), (1 : ℚ))], [((0 : ℚ), (2 : ℚ)), (1, 3)]] [0, 5, 9] = some (ms, vs) ∧
      ms.length = [(0 : ℚ), (5 : ℚ), (9 : ℚ)].length ∧
      vs.length = [(0 : ℚ), (5 : ℚ), (9 : ℚ)].length) ∧
    aggregate [] [(0 : ℚ), (5 : ℚ), (9 : ℚ)] = none :=
  c8_lengths [[((0 : ℚ), (1 : ℚ))], [((0 : ℚ), (2 : ℚ)), (1, 3)]] [0, 5, 9]
    (by decide) (by decide)

theorem loadDriver_spec (sources : List (Option Run)) :
    (loadDriver sources).1 = sources.filterMap id ∧
    (loadDriver sources).2 = sources.countP (fun s => s.isNone) := by
  induction sources with
  | nil => exact ⟨rfl, rfl⟩
  | cons s rest ih =>
      cases s with
      | none =>
          refine ⟨?_, ?_⟩
          · show (loadDriver rest).1 = List.filterMap id rest
            exact ih.1
          · show (loadDriver rest).2 + 1 = List.countP (fun s => s.isNone) (none :: rest)
            rw [List.countP_cons, ih.2]
            rfl
      | some r =>
          refine ⟨?_, ?_⟩
          · show r :: (loadDriver rest).1 = r :: List.filterMap id rest
            rw [ih.1]
          · show (loadDriver rest).2 = List.countP (fun s => s.isNone) (some r :: rest)
            rw [List.countP_cons, ih.2]
            rfl

/-- C7: the loading driver skips each missing source non-fatally, emits one
warning per missing source, and proceeds with a run set holding exactly the
existing sources (so K missing of N leaves N - K runs); in particular three
sources with the middle one missing give a run set of size 2 and exactly one
warning. -/
theorem length_filterMap_id_opt (l : List (Option Run)) :
    (l.filterMap id).length = l.length - l.countP (fun s => s.isNone) := by
  induction l with
  | nil => rfl
  | cons s rest ih =>
      have hle : rest.countP (fun s : Option Run => s.isNone) ≤ rest.length :=
        List.countP_le_length _
      cases s with
      | none =>
          have e1 : List.filterMap id (none :: rest) = List.filterMap id rest := rfl
          have e2 : List.countP (fun s : Option Run => s.isNone) (none :: rest) =
              List.countP (fun s : Option Run => s.isNone) rest + 1 := by
            rw [List.countP_cons]; rfl
          rw [e1, e2, ih, List.length_cons]
          omega
      | some r =>
          have e1 : List.filterMap id (some r :: rest) = r :: List.filterMap id rest := rfl
          have e2 : List.countP (fun s : Option Run => s.isNone) (some r :: rest) =
              List.countP (fun s : Option Run => s.isNone) rest := by
            rw [List.countP_cons]; rfl
          rw [e1, e2, List.length_cons, List.length_cons, ih]
          omega

theorem c7_skip_missing (sources : List (Option Run)) :
    (loadDriver sources).1 = sources.filterMap id ∧
    (loadDriver sources).1.length = sources.length - sources.countP (fun s => s.isNone) ∧
    (loadDriver sources).2 = sources.countP (fun s => s.isNone) ∧
    ∀ r1 r3 : Run, loadDriver [some r1, none, some r3] = ([r1, r3], 1) := by
  obtain ⟨h1, h2⟩ := loadDriver_spec sources
  refine ⟨h1, ?_, h2, fun r1 r3 => rfl⟩
  rw [h1]
  exact length_filterMap_id_opt sources

theorem foldl_min_le_init (xs : List ℚ) (a : ℚ) : xs.foldl min a ≤ a := by
  induction xs generalizing a with
  | nil => exact le_refl a
  | cons z zs ih =>
      exact le_trans (ih (min a z)) (min_le_left a z)

theorem foldl_min_le_mem (xs : List ℚ) (a y : ℚ) (hy : y ∈ xs) : xs.foldl min a ≤ y := by
  induction xs generalizing a with
  | nil => cases hy
  | cons z zs ih =>
      rcases List.mem_cons.mp hy with rfl | hy'
      · exact le_trans (foldl_min_le_init zs (min a y)) (min_le_right a y)
      · exact ih (min a z) hy'

theorem init_le_foldl_max (xs : List ℚ) (a : ℚ) : a ≤ xs.foldl max a := by
  induction xs generalizing a with
  | nil => exact le_refl a
  | cons z zs ih =>
      exact le_trans (le_max_left a z) (ih (max a z))

theorem mem_le_foldl_max (xs : List ℚ) (a y : ℚ) (hy : y ∈ xs) : y ≤ xs.foldl max a := by
  induction xs generalizing a with
  | nil => cases hy
  | cons z zs ih =>
      rcases List.mem_cons.mp hy with rfl | hy'
      · exact le_trans (le_max_right a y) (init_le_foldl_max zs (max a y))
      · exact ih (max a z) hy'

theorem listMin_le_mem (xs : List ℚ) (y : ℚ) (hy : y ∈ xs) : listMin xs ≤ y := by
  cases xs with
  | nil => cases hy
  | cons x rest =>
      rcases List.mem_cons.mp hy with rfl | hy'
      · exact foldl_min_le_init rest y
      · exact foldl_min_le_mem rest x y hy'

theorem mem_le_listMax (xs : List ℚ) (y : ℚ) (hy : y ∈ xs) : y ≤ listMax xs := by
  cases xs with
  | nil => cases hy
  | cons x rest =>
      rcases List.mem_cons.mp hy with rfl | hy'
      · exact init_le_foldl_max rest y
      · exact mem_le_foldl_max rest x y hy'

theorem listMin_le_mean (xs : List ℚ) (h : xs ≠ []) : listMin xs ≤ mean xs := by
  have hlen : (0 : ℚ) < xs.length := Nat.cast_pos.mpr (List.length_pos.mpr h)
  rw [mean, le_div_iff hlen]
  calc listMin xs * xs.length = xs.length • listMin xs := by
        rw [nsmul_eq_mul, mul_comm]
    _ ≤ xs.sum := List.card_nsmul_le_sum xs (listMin xs)
        (fun y hy => listMin_le_mem xs y hy)

theorem mean_le_listMax (xs : List ℚ) (h : xs ≠ []) : mean xs ≤ listMax xs := by
  have hlen : (0 : ℚ) < xs.length := Nat.cast_pos.mpr (List.length_pos.mpr h)
  rw [mean, div_le_iff hlen]
  calc xs.sum ≤ xs.length • listMax xs := List.sum_le_card_nsmul xs (listMax xs)
        (fun y hy => mem_le_listMax xs y hy)
    _ = listMax xs * xs.length := by rw [nsmul_eq_mul, mul_comm]

/-- C9: for every non-empty input table, `process_csv_file` writes a single
row where, for each of the five metrics, min ≤ avg ≤ max, and min/avg/max are
exactly the column-wise minimum, arithmetic mean and maximum of the input. -/
theorem c9_process_csv_file (rows : List RawRow) (h : rows ≠ []) :
    tripleOk (process_csv_file rows).min_oxygen_level
      (process_csv_file rows).avg_oxygen_level
      (process_csv_file rows).max_oxygen_level (rows.map RawRow.oxygen_level) ∧
    tripleOk (process_csv_file rows).min_oncoproteine_level
      (process_csv_file rows).avg_oncoproteine_level
      (process_csv_file rows).max_oncoproteine_level (rows.map RawRow.oncoproteine_level) ∧
    tripleOk (process_csv_file rows).min_base_transition_rate
      (process_csv_file rows).avg_base_transition_rate
      (process_csv_file rows).max_base_transition_rate (rows.map RawRow.base_transition_rate) ∧
    tripleOk (process_csv_file rows).min_final_rate_transition
      (process_csv_file rows).avg_final_rate_transition
      (process_csv_file rows).max_final_rate_transition (rows.map RawRow.final_rate_transition) ∧
    tripleOk (process_csv_file rows).min_probability_necrosis
      (process_csv_file rows).avg_probability_necrosis
      (process_csv_file rows).max_probability_necrosis (rows.map RawRow.probability_necrosis) := by
  have hmap : ∀ f : RawRow → ℚ, rows.map f ≠ [] := by
    intro f hc
    exact h (List.map_eq_nil.mp hc)
  refine ⟨?_, ?_, ?_, ?_, ?_⟩ <;>
    exact ⟨listMin_le_mean _ (hmap _), mean_le_listMax _ (hmap _), rfl, rfl, rfl⟩

/-- Witness for C9, at a concrete two-row table. -/
theorem c9_witness :
    tripleOk (process_csv_file [⟨1, 2, 3, 4, 5⟩, ⟨3, 0, 1, 8, 2⟩]).min_oxygen_level
      (process_csv_file [⟨1, 2, 3, 4, 5⟩, ⟨3, 0, 1, 8, 2⟩]).avg_oxygen_level
      (process_csv_file [⟨1, 2, 3, 4, 5⟩, ⟨3, 0, 1, 8, 2⟩]).max_oxygen_level
      ([⟨1, 2, 3, 4, 5⟩, ⟨3, 0, 1, 8, 2⟩].map RawRow.oxygen_level) ∧
    tripleOk (process_csv_file [⟨1, 2, 3, 4, 5⟩, ⟨3, 0, 1, 8, 2⟩]).min_oncoproteine_level
      (process_csv_file [⟨1, 2, 3, 4, 5⟩, ⟨3, 0, 1, 8, 2⟩]).avg_oncoproteine_level
      (process_csv_file [⟨1, 2, 3, 4, 5⟩, ⟨3, 0, 1, 8, 2⟩]).max_oncoproteine_level
      ([⟨1, 2, 3, 4, 5⟩, ⟨3, 0, 1, 8, 2⟩].map RawRow.oncoproteine_level) ∧
    tripleOk (process_csv_file [⟨1, 2, 3, 4, 5⟩, ⟨3, 0, 1, 8, 2⟩]).min_base_transition_rate
      (process_csv_file [⟨1, 2, 3, 4, 5⟩, ⟨3, 0, 1, 8, 2⟩]).avg_base_transition_rate
      (process_csv_file [⟨1, 2, 3, 4, 5⟩, ⟨3, 0, 1, 8, 2⟩]).max_base_transition_rate
      ([⟨1, 2, 3, 4, 5⟩, ⟨3, 0, 1, 8, 2⟩].map RawRow.base_transition_rate) ∧
    tripleOk (process_csv_file [⟨1, 2, 3, 4, 5⟩, ⟨3, 0, 1, 8, 2⟩]).min_final_rate_transition
      (process_csv_file [⟨1, 2, 3, 4, 5⟩, ⟨3, 0, 1, 8, 2⟩]).avg_final_rate_transition
      (process_csv_file [⟨1, 2, 3, 4, 5⟩, ⟨3, 0, 1, 8, 2⟩]).max_final_rate_transition
      ([⟨1, 2, 3, 4, 5⟩, ⟨3, 0, 1, 8, 2⟩].map RawRow.final_rate_transition) ∧
    tripleOk (process_csv_file [⟨1, 2, 3, 4, 5⟩, ⟨3, 0, 1, 8, 2⟩]).min_probability_necrosis
      (process_csv_file [⟨1, 2, 3, 4, 5⟩, ⟨3, 0, 1, 8, 2⟩]).avg_probability_necrosis
      (process_csv_file [⟨1, 2, 3, 4, 5⟩, ⟨3, 0, 1, 8, 2⟩]).max_probability_necrosis
      ([⟨1, 2, 3, 4, 5⟩, ⟨3, 0, 1, 8, 2⟩].map RawRow.probability_necrosis) :=
  c9_process_csv_file [⟨1, 2, 3, 4, 5⟩, ⟨3, 0, 1, 8, 2⟩] (by decide)

theorem splitOnChar_of_not_mem (c : Char) (s : List Char) (h : c ∉ s) :
    splitOnChar c s = [s] := by
  induction s with
  | nil => rfl
  | cons x xs ih =>
      have hx : ¬ x = c := fun hc => h (hc ▸ List.mem_cons_self x xs)
      have hxs : c ∉ xs := fun hc => h (List.mem_cons_of_mem x hc)
      simp only [splitOnChar, if_neg hx, ih hxs]

theorem splitOnChar_cons (c x : Char) (xs : List Char) :
    splitOnChar c (x :: xs) =
      if x = c then [] :: splitOnChar c xs
      else
        match splitOnChar c xs with
        | [] => [[x]]
        | h :: t => (x :: h) :: t := rfl

theorem splitOnChar_append (c : Char) (a b : List Char) (h : c ∉ a) :
    splitOnChar c (a ++ c :: b) = a :: splitOnChar c b := by
  induction a with
  | nil =>
      rw [List.nil_append, splitOnChar_cons, if_pos rfl]
  | cons x a' ih =>
      have hx : ¬ x = c := fun hc => h (hc ▸ List.mem_cons_self x a')
      have ha' : c ∉ a' := fun hc => h (List.mem_cons_of_mem x hc)
      rw [List.cons_append, splitOnChar_cons, if_neg hx, ih ha']

theorem digit_ne_special (c : Char) (h : c.isDigit = true) :
    c ≠ ',' ∧ c ≠ '.' ∧ c ≠ 'm' ∧ c ≠ 's' := by
  refine ⟨?_, ?_, ?_, ?_⟩ <;> intro hc <;> rw [hc] at h <;> exact absurd h (by decide)

theorem not_mem_of_all_digit (d : List Char) (hd : d.all Char.isDigit = true)
    (c : Char) (hc : c.isDigit = false) : c ∉ d := by
  intro hmem
  rw [List.all_eq_true] at hd
  rw [hd c hmem] at hc
  cases hc

theorem replaceChar_of_not_mem (a b : Char) (s : List Char) (h : a ∉ s) :
    replaceChar a b s = s := by
  induction s with
  | nil => rfl
  | cons x xs ih =>
      have hx : ¬ x = a := fun hc => h (hc ▸ List.mem_cons_self x xs)
      have hxs : a ∉ xs := fun hc => h (List.mem_cons_of_mem x hc)
      simp only [replaceChar, List.map_cons, if_neg hx]
      rw [show List.map (fun x => if x = a then b else x) xs = replaceChar a b xs from rfl,
        ih hxs]

theorem removeChar_of_not_mem (c : Char) (s : List Char) (h : c ∉ s) :
    removeChar c s = s :=
  List.filter_eq_self.mpr (fun a ha => decide_eq_true (fun hc => h (hc ▸ ha)))

theorem removeChar_append (c : Char) (a b : List Char) :
    removeChar c (a ++ b) = removeChar c a ++ removeChar c b :=
  List.filter_append a b

theorem parseDec_digits (d : List Char) (hne : d ≠ []) (hd : d.all Char.isDigit = true) :
    parseDec d = some ((digitsToNat d : ℚ)) := by
  have hdot : '.' ∉ d := not_mem_of_all_digit d hd '.' (by decide)
  unfold parseDec
  rw [splitOnChar_of_not_mem '.' d hdot]
  show (if d ≠ [] ∧ d.all Char.isDigit = true then some ((digitsToNat d : ℚ)) else none) =
    some ((digitsToNat d : ℚ))
  exact if_pos ⟨hne, hd⟩

theorem parseDec_dot (d2 d3 : List Char) (hd2 : d2.all Char.isDigit = true)
    (hd3 : d3.all Char.isDigit = true) (h23 : d2 ≠ [] ∨ d3 ≠ []) :
    parseDec (d2 ++ '.' :: d3) =
      some ((digitsToNat d2 : ℚ) + (digitsToNat d3 : ℚ) / 10 ^ d3.length) := by
  have h2 : '.' ∉ d2 := not_mem_of_all_digit d2 hd2 '.' (by decide)
  have h3 : '.' ∉ d3 := not_mem_of_all_digit d3 hd3 '.' (by decide)
  unfold parseDec
  rw [splitOnChar_append '.' d2 d3 h2, splitOnChar_of_not_mem '.' d3 h3]
  show (if (d2 ≠ [] ∨ d3 ≠ []) ∧ d2.all Char.isDigit = true ∧ d3.all Char.isDigit = true then
      some ((digitsToNat d2 : ℚ) + (digitsToNat d3 : ℚ) / 10 ^ d3.length) else none) = _
  exact if_pos ⟨h23, hd2, hd3⟩

theorem removeChar_seconds (d2 d3 : List Char) (hd2 : d2.all Char.isDigit = true)
    (hd3 : d3.all Char.isDigit = true) :
    removeChar 's' (d2 ++ '.' :: (d3 ++ ['s'])) = d2 ++ '.' :: d3 := by
  have hs : 's' ∉ d2 ++ '.' :: d3 := by
    intro hmem
    rcases List.mem_append.mp hmem with hm | hm
    · exact not_mem_of_all_digit d2 hd2 's' (by decide) hm
    · rcases List.mem_cons.mp hm with he | hm'
      · exact absurd he (by decide)
      · exact not_mem_of_all_digit d3 hd3 's' (by decide) hm'
  rw [← List.cons_append, ← List.append_assoc, removeChar_append,
    removeChar_of_not_mem 's' _ hs, show removeChar 's' ['s'] = [] from rfl, List.append_nil]

theorem replace_comma_form (d1 d2 d3 : List Char) (hd1 : d1.all Char.isDigit = true)
    (hd2 : d2.all Char.isDigit = true) (hd3 : d3.all Char.isDigit = true) :
    replaceChar ',' '.' (d1 ++ 'm' :: (d2 ++ ',' :: (d3 ++ ['s']))) =
      d1 ++ 'm' :: (d2 ++ '.' :: (d3 ++ ['s'])) := by
  have e1 : replaceChar ',' '.' d1 = d1 :=
    replaceChar_of_not_mem ',' '.' d1 (not_mem_of_all_digit d1 hd1 ',' (by decide))
  have e2 : replaceChar ',' '.' d2 = d2 :=
    replaceChar_of_not_mem ',' '.' d2 (not_mem_of_all_digit d2 hd2 ',' (by decide))
  have e3 : replaceChar ',' '.' d3 = d3 :=
    replaceChar_of_not_mem ',' '.' d3 (not_mem_of_all_digit d3 hd3 ',' (by decide))
  simp only [replaceChar] at e1 e2 e3 ⊢
  simp only [List.map_append, List.map_cons, List.map_nil, e1, e2, e3]
  rfl

theorem mem_replaceChar_comma_dot (s : List Char) (hs : 'm' ∉ s) :
    'm' ∉ replaceChar ',' '.' s := by
  intro hmem
  obtain ⟨x, hx, hfx⟩ := List.mem_map.mp hmem
  by_cases hc : x = ','
  · rw [if_pos hc] at hfx
    exact absurd hfx (by decide)
  · rw [if_neg hc] at hfx
    exact hs (hfx ▸ hx)

/-- C10: `parse_time` maps a string of the form `<M>m<S>s` — where M is a
digit string and S a digit string optionally using a comma as decimal
separator — to 60·M + S seconds, and fails (no `parts[1]`) on any string
lacking the 'm' separator. -/
theorem c10_parse_time_spec (d1 d2 d3 s : List Char)
    (h1 : d1 ≠ []) (hd1 : d1.all Char.isDigit = true)
    (h2 : d2 ≠ []) (hd2 : d2.all Char.isDigit = true)
    (hd3 : d3.all Char.isDigit = true) (hs : 'm' ∉ s) :
    parse_time (d1 ++ 'm' :: (d2 ++ ',' :: (d3 ++ ['s']))) =
      some ((digitsToNat d1 : ℚ) * 60 +
        ((digitsToNat d2 : ℚ) + (digitsToNat d3 : ℚ) / 10 ^ d3.length)) ∧
    parse_time (d1 ++ 'm' :: (d2 ++ ['s'])) =
      some ((digitsToNat d1 : ℚ) * 60 + (digitsToNat d2 : ℚ)) ∧
    parse_time s = none := by
  have hm1 : 'm' ∉ d1 := not_mem_of_all_digit d1 hd1 'm' (by decide)
  refine ⟨?_, ?_, ?_⟩
  · have hm2 : 'm' ∉ d2 ++ '.' :: (d3 ++ ['s']) := by
      intro hmem
      rcases List.mem_append.mp hmem with hm | hm
      · exact not_mem_of_all_digit d2 hd2 'm' (by decide) hm
      · rcases List.mem_cons.mp hm with he | hm'
        · exact absurd he (by decide)
        · rcases List.mem_append.mp hm' with hm'' | hm''
          · exact not_mem_of_all_digit d3 hd3 'm' (by decide) hm''
          · rcases List.mem_cons.mp hm'' with he' | hc
            · exact absurd he' (by decide)
            · cases hc
    unfold parse_time
    rw [replace_comma_form d1 d2 d3 hd1 hd2 hd3,
      splitOnChar_append 'm' d1 (d2 ++ '.' :: (d3 ++ ['s'])) hm1,
      splitOnChar_of_not_mem 'm' (d2 ++ '.' :: (d3 ++ ['s'])) hm2]
    show (match parseDec d1, parseDec (removeChar 's' (d2 ++ '.' :: (d3 ++ ['s']))) with
      | some m, some sec => some (m * 60 + sec)
      | _, _ => none) =
      some ((digitsToNat d1 : ℚ) * 60 +
        ((digitsToNat d2 : ℚ) + (digitsToNat d3 : ℚ) / 10 ^ d3.length))
    rw [parseDec_digits d1 h1 hd1, removeChar_seconds d2 d3 hd2 hd3,
      parseDec_dot d2 d3 hd2 hd3 (Or.inl h2)]
  · have hnm : ',' ∉ d1 ++ 'm' :: (d2 ++ ['s']) := by
      intro hmem
      rcases List.mem_append.mp hmem with hm | hm
      · exact not_mem_of_all_digit d1 hd1 ',' (by decide) hm
      · rcases List.mem_cons.mp hm with he | hm'
        · exact absurd he (by decide)
        · rcases List.mem_append.mp hm' with hm'' | hm''
          · exact not_mem_of_all_digit d2 hd2 ',' (by decide) hm''
          · rcases List.mem_cons.mp hm'' with he' | hc
            · exact absurd he' (by decide)
            · cases hc
    have hm2 : 'm' ∉ d2 ++ ['s'] := by
      intro hmem
      rcases List.mem_append.mp hmem with hm | hm
      · exact not_mem_of_all_digit d2 hd2 'm' (by decide) hm
      · rcases List.mem_cons.mp hm with he | hc
        · exact absurd he (by decide)
        · cases hc
    unfold parse_time
    rw [replaceChar_of_not_mem ',' '.' (d1 ++ 'm' :: (d2 ++ ['s'])) hnm,
      splitOnChar_append 'm' d1 (d2 ++ ['s']) hm1,
      splitOnChar_of_not_mem 'm' (d2 ++ ['s']) hm2]
    show (match parseDec d1, parseDec (removeChar 's' (d2 ++ ['s'])) with
      | some m, some sec => some (m * 60 + sec)
      | _, _ => none) =
      some ((digitsToNat d1 : ℚ) * 60 + (digitsToNat d2 : ℚ))
    rw [parseDec_digits d1 h1 hd1]
    rw [show removeChar 's' (d2 ++ ['s']) = d2 by
      rw [removeChar_append,
        removeChar_of_not_mem 's' d2 (not_mem_of_all_digit d2 hd2 's' (by decide)),
        show removeChar 's' ['s'] = [] from rfl, List.append_nil]]
    rw [parseDec_digits d2 h2 hd2]
  · unfold parse_time
    rw [splitOnChar_of_not_mem 'm' (replaceChar ',' '.' s) (mem_replaceChar_comma_dot s hs)]

/-- Witness for C10, at the string "517m13,098s" of the source comment, at
"517m13s", and at the 'm'-free string "ab". -/
theorem c10_witness :
    parse_time (['5', '1', '7'] ++ 'm' :: (['1', '3'] ++ ',' :: (['0', '9', '8'] ++ ['s']))) =
      some ((digitsToNat ['5', '1', '7'] : ℚ) * 60 +
        ((digitsToNat ['1', '3'] : ℚ) +
          (digitsToNat ['0', '9', '8'] : ℚ) / 10 ^ (['0', '9', '8'] : List Char).length)) ∧
    parse_time (['5', '1', '7'] ++ 'm' :: (['1', '3'] ++ ['s'])) =
      some ((digitsToNat ['5', '1', '7'] : ℚ) * 60 + (digitsToNat ['1', '3'] : ℚ)) ∧
    parse_time ['a', 'b'] = none :=
  c10_parse_time_spec ['5', '1', '7'] ['1', '3'] ['0', '9', '8'] ['a', 'b']
    (by decide) (by decide) (by decide) (by decide) (by decide) (by decide)

/-- C2 counterexample.  First input: one run with the single sample
(t = 0, numerator 5, denominator 0) and axis [0]: the resampled denominator
at t = 0 is exactly 0, yet `aggregate_ratio` returns +infinity (100·5/0),
not NaN.  Second input: one run with samples (0, 0, 0) and (10, 5, 10) and
axis [0, 5, 10]: at t = 5 the resampled denominator is 5 ≠ 0, yet the result
is NaN (the 0/0 NaN at t = 0 spreads through interpolation), not a finite
value.  Both halves of the claim fail. -/
theorem c2_counterexample :
    (aggregate_ratio [[((0 : ℚ), (5 : ℚ), (0 : ℚ))]] [0] = some ([FV.pinf], [FV.nan]) ∧
      resample [((0 : ℚ), (0 : ℚ))] [0] = some [0] ∧ FV.pinf ≠ FV.nan) ∧
    (aggregate_ratio [[((0 : ℚ), (0 : ℚ), (0 : ℚ)), (10, 5, 10)]] [0, 5, 10] =
        some ([FV.nan, FV.nan, FV.fin 50], [FV.nan, FV.nan, FV.fin 0]) ∧
      resample [((0 : ℚ), (0 : ℚ)), ((10 : ℚ), (10 : ℚ))] [0, 5, 10] = some [0, 5, 10] ∧
      (5 : ℚ) ≠ 0) := by
  refine ⟨⟨?_, ?_, by decide⟩, ⟨?_, ?_, by norm_num⟩⟩
  · norm_num [aggregate_ratio, ratioSeries, fvResampleAll, fvResample, fvInterp1, fvColumn,
      fvMean, fvVarP, fvSum, fvAdd, fvMul, fvDiv, fvSub, fvNeg, List.range_succ]
  · norm_num [resample, interp1]
  · norm_num [aggregate_ratio, ratioSeries, fvResampleAll, fvResample, fvInterp1, fvInterpSeg,
      fvColumn, fvMean, fvVarP, fvSum, fvAdd, fvMul, fvDiv, fvSub, fvNeg, fvBeq,
      List.range_succ]
  · norm_num [resample, interp1]

theorem fvIsFin_iff (v : FV) : fvIsFin v = true ↔ ∃ q, v = FV.fin q := by
  cases v <;> simp [fvIsFin]

theorem fvAdd_nan_right (x : FV) : fvAdd x FV.nan = FV.nan := by
  cases x <;> rfl

theorem fvSub_nan_right (x : FV) : fvSub x FV.nan = FV.nan := by
  cases x <;> rfl

theorem fvDiv_fin_of_ne (a b : ℚ) (hb : b ≠ 0) : fvDiv (FV.fin a) (FV.fin b) = FV.fin (a / b) := by
  simp [fvDiv, hb]

theorem fvInterpSeg_isFin (x1 x2 : ℚ) (y1 y2 : FV) (x : ℚ)
    (h1 : fvIsFin y1 = true) (h2 : fvIsFin y2 = true) (hx : x2 - x1 ≠ 0) :
    fvIsFin (fvInterpSeg x1 x2 y1 y2 x) = true := by
  obtain ⟨a, rfl⟩ := (fvIsFin_iff y1).mp h1
  obtain ⟨b, rfl⟩ := (fvIsFin_iff y2).mp h2
  rw [fvInterpSeg]
  rw [show fvSub (FV.fin b) (FV.fin a) = FV.fin (b + -a) from rfl]
  rw [fvDiv_fin_of_ne _ _ hx]
  rw [show fvAdd (fvMul (FV.fin ((b + -a) / (x2 - x1))) (FV.fin (x - x1))) (FV.fin a) =
    FV.fin ((b + -a) / (x2 - x1) * (x - x1) + a) from rfl]
  rw [if_neg (by intro hc; cases hc)]
  rfl

theorem fvInterp1_isFin (p : ℚ × FV) (rest : List (ℚ × FV))
    (hp : fvIsFin p.2 = true) (hrest : ∀ s ∈ rest, fvIsFin s.2 = true) (x : ℚ) :
    fvIsFin (fvInterp1 p rest x) = true := by
  induction rest generalizing p with
  | nil => exact hp
  | cons q rs ih =>
      simp only [fvInterp1]
      by_cases hlt : x < q.1
      · rw [if_pos hlt]
        by_cases hle : x ≤ p.1
        · rw [if_pos hle]
          exact hp
        · rw [if_neg hle]
          have hne : q.1 - p.1 ≠ 0 :=
            sub_ne_zero.mpr (ne_of_gt (lt_trans (not_le.mp hle) hlt))
          exact fvInterpSeg_isFin p.1 q.1 p.2 q.2 x hp
            (hrest q (List.mem_cons_self q rs)) hne
      · rw [if_neg hlt]
        exact ih q (hrest q (List.mem_cons_self q rs))
          (fun s hs => hrest s (List.mem_cons_of_mem _ hs))

theorem fvSum_isFin (l : List FV) (h : ∀ v ∈ l, fvIsFin v = true) :
    fvIsFin (fvSum l) = true := by
  rw [fvSum]
  have aux : ∀ (l' : List FV) (acc : FV), fvIsFin acc = true →
      (∀ v ∈ l', fvIsFin v = true) → fvIsFin (l'.foldl fvAdd acc) = true := by
    intro l'
    induction l' with
    | nil => intro acc hacc _; exact hacc
    | cons v vs ih =>
        intro acc hacc hall
        rw [List.foldl_cons]
        obtain ⟨a, rfl⟩ := (fvIsFin_iff acc).mp hacc
        obtain ⟨b, rfl⟩ := (fvIsFin_iff v).mp (hall v (List.mem_cons_self v vs))
        exact ih (FV.fin (a + b)) rfl (fun w hw => hall w (List.mem_cons_of_mem _ hw))
  exact aux l (FV.fin 0) rfl h

theorem fvMean_isFin (l : List FV) (hne : l ≠ []) (h : ∀ v ∈ l, fvIsFin v = true) :
    fvIsFin (fvMean l) = true := by
  rw [fvMean]
  obtain ⟨s, hs⟩ := (fvIsFin_iff (fvSum l)).mp (fvSum_isFin l h)
  rw [hs, fvDiv_fin_of_ne s (l.length : ℚ) (by
    exact_mod_cast fun hc => hne (List.length_eq_zero.mp hc))]
  rfl

theorem fvVarP_isFin (l : List FV) (hne : l ≠ []) (h : ∀ v ∈ l, fvIsFin v = true) :
    fvIsFin (fvVarP l) = true := by
  rw [fvVarP]
  obtain ⟨m, hm⟩ := (fvIsFin_iff (fvMean l)).mp (fvMean_isFin l hne h)
  apply fvMean_isFin
  · intro hc
    exact hne (List.map_eq_nil.mp hc)
  · intro v hv
    obtain ⟨x, hx, rfl⟩ := List.mem_map.mp hv
    obtain ⟨a, rfl⟩ := (fvIsFin_iff x).mp (h x hx)
    rw [hm]
    rfl

theorem fvSum_nan (l : List FV) (h : FV.nan ∈ l) : fvSum l = FV.nan := by
  rw [fvSum]
  have aux1 : ∀ (l' : List FV), l'.foldl fvAdd FV.nan = FV.nan := by
    intro l'
    induction l' with
    | nil => rfl
    | cons v vs ih =>
        rw [List.foldl_cons, show fvAdd FV.nan v = FV.nan from by cases v <;> rfl, ih]
  have aux2 : ∀ (l' : List FV) (acc : FV), FV.nan ∈ l' → l'.foldl fvAdd acc = FV.nan := by
    intro l'
    induction l' with
    | nil => intro acc hc; cases hc
    | cons v vs ih =>
        intro acc hmem
        rw [List.foldl_cons]
        rcases List.mem_cons.mp hmem with rfl | hmem'
        · rw [fvAdd_nan_right acc]
          exact aux1 vs
        · exact ih _ hmem'
  exact aux2 l (FV.fin 0) h

theorem fvMean_nan (l : List FV) (h : FV.nan ∈ l) : fvMean l = FV.nan := by
  rw [fvMean, fvSum_nan l h]
  rfl

theorem fvVarP_nan (l : List FV) (hne : l ≠ []) (h : FV.nan ∈ l) : fvVarP l = FV.nan := by
  rw [fvVarP, fvMean_nan l h]
  have hmap : l.map (fun x => fvMul (fvSub x FV.nan) (fvSub x FV.nan)) =
      l.map (fun _ => FV.nan) :=
    List.map_congr_left (fun x _ => by rw [fvSub_nan_right x]; rfl)
  rw [hmap]
  apply fvMean_nan
  obtain ⟨x, xs, rfl⟩ := List.exists_cons_of_ne_nil hne
  exact List.mem_map.mpr ⟨x, List.mem_cons_self x xs, rfl⟩

theorem fvInterp1_sample (p : ℚ × FV) (rest : List (ℚ × FV))
    (hsorted : List.Pairwise (· < ·) ((p :: rest).map Prod.fst))
    (t : ℚ) (v : FV) (hmem : (t, v) ∈ p :: rest) :
    fvInterp1 p rest t = v := by
  induction rest generalizing p with
  | nil =>
      rcases List.mem_cons.mp hmem with he | hc
      · rw [← he]
        rfl
      · cases hc
  | cons q rs ih =>
      rw [List.map_cons, List.pairwise_cons] at hsorted
      rcases List.mem_cons.mp hmem with he | hmem'
      · have ht : t = p.1 := congrArg Prod.fst he
        have hv : v = p.2 := congrArg Prod.snd he
        have hq : t < q.1 := by
          rw [ht]
          apply hsorted.1
          rw [List.map_cons]
          exact List.mem_cons_self q.1 (rs.map Prod.fst)
        simp only [fvInterp1]
        rw [if_pos hq, if_pos (le_of_eq ht)]
        exact hv.symm
      · have hge : ¬ t < q.1 := by
          rcases List.mem_cons.mp hmem' with he' | hmem''
          · have ht : t = q.1 := congrArg Prod.fst he'
            rw [ht]
            exact lt_irrefl q.1
          · have h2 := hsorted.2
            rw [List.map_cons, List.pairwise_cons] at h2
            exact not_lt.mpr
              (le_of_lt (h2.1 t (List.mem_map.mpr ⟨(t, v), hmem'', rfl⟩)))
        simp only [fvInterp1]
        rw [if_neg hge]
        exact ih q hsorted.2 hmem'

theorem fvResampleAll_of_all_ne_nil (runs : List (List (ℚ × FV))) (axis : List ℚ)
    (h : ∀ r ∈ runs, r ≠ []) :
    fvResampleAll runs axis = some (runs.map (fun r => fvResampleD r axis)) := by
  induction runs with
  | nil => rfl
  | cons r rs ih =>
      obtain ⟨p, rest, rfl⟩ := List.exists_cons_of_ne_nil (h r (List.mem_cons_self r rs))
      rw [fvResampleAll, ih (fun r' hm => h r' (List.mem_cons_of_mem _ hm))]
      rfl

theorem ratioSeries_fst (run : RatioRun) :
    (ratioSeries run).map Prod.fst = run.map (fun s => s.1) := by
  rw [ratioSeries, List.map_map]
  rfl

theorem ratioSeries_isFin (run : RatioRun) (hden : ∀ s ∈ run, s.2.2 ≠ 0) :
    ∀ s ∈ ratioSeries run, fvIsFin s.2 = true := by
  intro s hs
  obtain ⟨x, hx, rfl⟩ := List.mem_map.mp hs
  show fvIsFin (fvDiv (FV.fin (100 * x.2.1)) (FV.fin x.2.2)) = true
  rw [fvDiv_fin_of_ne _ _ (hden x hx)]
  rfl

/-- C2 (amended): `aggregate_ratio` propagates division by zero as IEEE
special values instead of raising.  On a non-empty run set of non-empty runs
it always returns mean/variance sequences of the axis length; when every
sample's denominator is nonzero, every returned value is finite; and a
sample with numerator and denominator both 0 (a 0/0 NaN) makes the returned
mean and variance NaN at any axis point equal to that sample's time (for a
run with strictly increasing times).  A nonzero numerator over a zero
denominator gives ±infinity rather than NaN, and a NaN also spreads to
neighbouring interpolated time points, so NaN does not coincide exactly with
"resampled denominator = 0". -/
theorem c2_nan_propagation (runSet : List RatioRun) (axis : List ℚ)
    (hne : runSet ≠ []) (hruns : ∀ run ∈ runSet, run ≠ []) :
    ∃ ms vs, aggregate_ratio runSet axis = some (ms, vs) ∧
      ms.length = axis.length ∧ vs.length = axis.length ∧
      ((∀ run ∈ runSet, ∀ s ∈ run, s.2.2 ≠ 0) →
        (∀ v ∈ ms, fvIsFin v = true) ∧ (∀ v ∈ vs, fvIsFin v = true)) ∧
      (∀ run ∈ runSet, List.Pairwise (· < ·) (run.map (fun s => s.1)) →
        ∀ i t, axis.get? i = some t → ((t, (0 : ℚ), (0 : ℚ)) : RatioSample) ∈ run →
          ms.get? i = some FV.nan ∧ vs.get? i = some FV.nan) := by
  have hmap_ne : ∀ r ∈ runSet.map ratioSeries, r ≠ [] := by
    intro r hr
    obtain ⟨run, hrun, rfl⟩ := List.mem_map.mp hr
    intro hc
    exact hruns run hrun (List.map_eq_nil.mp hc)
  have hrowseq := fvResampleAll_of_all_ne_nil (runSet.map ratioSeries) axis hmap_ne
  have hemp : runSet.isEmpty = false := by
    cases runSet with
    | nil => exact absurd rfl hne
    | cons a l => rfl
  have hrows_ne : (runSet.map ratioSeries).map (fun r => fvResampleD r axis) ≠ [] := by
    intro hc
    exact hne (List.map_eq_nil.mp (List.map_eq_nil.mp hc))
  have hcol_ne : ∀ j,
      fvColumn ((runSet.map ratioSeries).map (fun r => fvResampleD r axis)) j ≠ [] := by
    intro j hc
    exact hrows_ne (List.map_eq_nil.mp hc)
  refine ⟨(List.range axis.length).map (fun j =>
      fvMean (fvColumn ((runSet.map ratioSeries).map (fun r => fvResampleD r axis)) j)),
    (List.range axis.length).map (fun j =>
      fvVarP (fvColumn ((runSet.map ratioSeries).map (fun r => fvResampleD r axis)) j)),
    ?_, by simp, by simp, ?_, ?_⟩
  · rw [aggregate_ratio, hemp, hrowseq]
    rfl
  · -- all-finite under nonzero denominators
    intro hden
    have hcolfin : ∀ j, j < axis.length →
        ∀ w ∈ fvColumn ((runSet.map ratioSeries).map (fun r => fvResampleD r axis)) j,
          fvIsFin w = true := by
      intro j hj w hw
      obtain ⟨row, hrow, rfl⟩ := List.mem_map.mp hw
      obtain ⟨rser, hrser, rfl⟩ := List.mem_map.mp hrow
      obtain ⟨run, hrun, rfl⟩ := List.mem_map.mp hrser
      have hall : ∀ s ∈ ratioSeries run, fvIsFin s.2 = true :=
        ratioSeries_isFin run (hden run hrun)
      obtain ⟨q0, qrest, hq⟩ :=
        List.exists_cons_of_ne_nil (hmap_ne (ratioSeries run)
          (List.mem_map.mpr ⟨run, hrun, rfl⟩))
      rw [hq, fvResampleD]
      rw [List.getD_eq_getElem _ _ (by rw [List.length_map]; exact hj)]
      rw [List.getElem_map]
      apply fvInterp1_isFin
      · exact hall q0 (hq ▸ List.mem_cons_self q0 qrest)
      · intro s hs
        exact hall s (hq ▸ List.mem_cons_of_mem q0 hs)
    constructor
    · intro v hv
      obtain ⟨j, hj, rfl⟩ := List.mem_map.mp hv
      exact fvMean_isFin _ (hcol_ne j) (hcolfin j (List.mem_range.mp hj))
    · intro v hv
      obtain ⟨j, hj, rfl⟩ := List.mem_map.mp hv
      exact fvVarP_isFin _ (hcol_ne j) (hcolfin j (List.mem_range.mp hj))
  · -- NaN at a 0/0 sample time
    intro run hrun hsorted i t hit hmem0
    have hilt : i < axis.length := by
      by_contra hc
      rw [List.get?_eq_none.mpr (le_of_not_lt hc)] at hit
      cases hit
    have htval : axis.get ⟨i, hilt⟩ = t := by
      rw [List.get?_eq_get hilt] at hit
      exact Option.some_inj.mp hit
    obtain ⟨q0, qrest, hq⟩ :=
      List.exists_cons_of_ne_nil (hmap_ne (ratioSeries run)
        (List.mem_map.mpr ⟨run, hrun, rfl⟩))
    have hpair : List.Pairwise (· < ·) ((q0 :: qrest).map Prod.fst) := by
      rw [← hq, ratioSeries_fst]
      exact hsorted
    have hmemser : ((t, FV.nan) : ℚ × FV) ∈ q0 :: qrest := by
      rw [← hq, ratioSeries]
      refine List.mem_map.mpr ⟨(t, 0, 0), hmem0, ?_⟩
      show (t, fvDiv (FV.fin (100 * 0)) (FV.fin 0)) = (t, FV.nan)
      norm_num [fvDiv]
    have hval : fvInterp1 q0 qrest t = FV.nan :=
      fvInterp1_sample q0 qrest hpair t FV.nan hmemser
    have hrow_mem : (axis.map (fvInterp1 q0 qrest)) ∈
        (runSet.map ratioSeries).map (fun r => fvResampleD r axis) := by
      refine List.mem_map.mpr ⟨ratioSeries run, List.mem_map.mpr ⟨run, hrun, rfl⟩, ?_⟩
      rw [hq, fvResampleD]
    have hnan_col : FV.nan ∈
        fvColumn ((runSet.map ratioSeries).map (fun r => fvResampleD r axis)) i := by
      refine List.mem_map.mpr ⟨axis.map (fvInterp1 q0 qrest), hrow_mem, ?_⟩
      rw [List.getD_eq_getElem _ _ (by rw [List.length_map]; exact hilt)]
      rw [List.getElem_map]
      rw [show axis[i] = t from htval]
      exact hval
    constructor
    · rw [List.get?_map, List.get?_range hilt]
      show some (fvMean _) = some FV.nan
      rw [fvMean_nan _ hnan_col]
    · rw [List.get?_map, List.get?_range hilt]
      show some (fvVarP _) = some FV.nan
      rw [fvVarP_nan _ (hcol_ne i) hnan_col]

/-- Witness for C2, at the run {(0, 0/0), (10, 5/10)} and the axis [0, 10]. -/
theorem c2_witness :
    ∃ ms vs,
      aggregate_ratio [[((0 : ℚ), (0 : ℚ), (0 : ℚ)), (10, 5, 10)]] [0, 10] = some (ms, vs) ∧
      ms.length = [(0 : ℚ), (10 : ℚ)].length ∧ vs.length = [(0 : ℚ), (10 : ℚ)].length ∧
      ((∀ run ∈ [[((0 : ℚ), (0 : ℚ), (0 : ℚ)), (10, 5, 10)]], ∀ s ∈ run, s.2.2 ≠ 0) →
        (∀ v ∈ ms, fvIsFin v = true) ∧ (∀ v ∈ vs, fvIsFin v = true)) ∧
      (∀ run ∈ [[((0 : ℚ), (0 : ℚ), (0 : ℚ)), (10, 5, 10)]],
        List.Pairwise (· < ·) (run.map (fun s => s.1)) →
        ∀ i t, [(0 : ℚ), (10 : ℚ)].get? i = some t →
          ((t, (0 : ℚ), (0 : ℚ)) : RatioSample) ∈ run →
          ms.get? i = some FV.nan ∧ vs.get? i = some FV.nan) :=
  c2_nan_propagation [[((0 : ℚ), (0 : ℚ), (0 : ℚ)), (10, 5, 10)]] [0, 10]
    (by decide) (by decide)
